import Mathlib

/-!
Shallow embedding of the `cliconfigupgrade` subsystem: the legacy (HCL 1.0)
CLI-config upgrade pipeline consisting of `UpgradeOldHCLConfig`, `upgradeBody`,
`upgradeArgument`, `upgradeNestedBlock`, `upgradeExpressionConstant`
(cliconfigupgrade.go) and the ad hoc comment queue (`collectAdhocComments`,
`commentQueue.TakeBeforePos`, `writeComments`, `writeNewline`,
`hcl1NodeEndPos`) from comments.go.

Go panics (type-assertion failures, index-out-of-range, and the explicit
`panic("ExpandEnv expression upgrade not yet supported")`) are modelled as
`Except.error` with a fixed message per panic site.  The external
collaborators (the HCL 1.0 parser and the hclwrite serializer) are passed in
as function parameters where the embedded code calls them.
-/

/-- HCL 1.0 `token.Pos` (comments.go / hcl token package): a source position
with byte offset, line and column. The `Filename` field is omitted since the
upgrade never consults it. -/
structure Pos where
  offset : Nat
  line : Nat
  column : Nat
deriving DecidableEq, Repr

/-- `token.Pos.Before`: `u.Offset > p.Offset || u.Line > p.Line`. -/
def Pos.before (p u : Pos) : Bool :=
  u.offset > p.offset || u.line > p.line

/-- `token.Pos.After`: `u.Offset < p.Offset || u.Line < p.Line`. -/
def Pos.after (p u : Pos) : Bool :=
  u.offset < p.offset || u.line < p.line

/-- Opaque stand-in for a Go `float64` payload, carried around unevaluated
(identified by its IEEE-754 bit pattern). No upgrade code computes with the
float, it is only wrapped into a cty number. -/
structure GoFloat where
  bits : Nat
deriving DecidableEq, Repr

/-- The decoded result of HCL 1.0 `token.Token.Value()` on a literal token:
it returns a Go `interface{}` holding a `string`, `int`, `float64` or `bool`
(those are all the types `Token.Value` can produce for literal tokens). -/
inductive TokenValue where
  | str (s : String)
  | int (i : Int)
  | float (f : GoFloat)
  | bool (b : Bool)
deriving DecidableEq, Repr

/-- HCL 1.0 `token.Token` as the upgrade consumes it: a position and the
decoded `Value()` payload (the raw text and token type are only used through
`Value()` in this subsystem). -/
structure Token where
  pos : Pos
  value : TokenValue
deriving DecidableEq, Repr

/-- The Go type assertion `tok.Value().(string)`: succeeds exactly on string
payloads and panics (modelled as `Except.error`) otherwise. -/
def TokenValue.asString : TokenValue → Except String String
  | .str s => .ok s
  | _ => .error "interface conversion: token value is not a string"

/-- HCL 1.0 `ast.Comment`: a single comment with its start position. -/
structure Comment where
  start : Pos
  text : String
deriving DecidableEq, Repr

/-- HCL 1.0 `ast.CommentGroup`: a run of adjacent comments. -/
structure CommentGroup where
  list : List Comment
deriving DecidableEq, Repr

/-- `CommentGroup.Pos()`: the position of the first comment of the group
(groups produced by the parser are never empty; the empty case defaults to
the zero position). -/
def CommentGroup.pos (g : CommentGroup) : Pos :=
  match g.list with
  | [] => ⟨0, 0, 0⟩
  | c :: _ => c.start

/-- HCL 1.0 `ast.ObjectKey`: one key of an object item. -/
structure ObjectKey where
  token : Token
deriving DecidableEq, Repr

def ObjectKey.pos (k : ObjectKey) : Pos := k.token.pos

mutual

/-- The HCL 1.0 `ast.Node` interface, as a closed sum over all of its
implementations: `LiteralType`, `ListType`, `ObjectType`, `ObjectList`,
`ObjectItem`, `ObjectKey`, `Comment`, `CommentGroup` and `File`. -/
inductive Node where
  | literal (token : Token) (leadComment lineComment : Option CommentGroup)
  | listVal (lbrack rbrack : Pos) (elems : List Node)
  | objectVal (lbrace rbrace : Pos) (list : ObjectList)
  | objectListNode (list : ObjectList)
  | objectItemNode (item : ObjectItem)
  | objectKeyNode (key : ObjectKey)
  | commentNode (comment : Comment)
  | commentGroupNode (group : CommentGroup)
  | fileNode (body : Node) (comments : List CommentGroup)

/-- HCL 1.0 `ast.ObjectList`: the items of an object body. -/
inductive ObjectList where
  | mk (items : List ObjectItem)

/-- HCL 1.0 `ast.ObjectItem`: keys, the `Assign` marker position (zero when
the item uses block syntax), the value node, and the attached lead and line
comment groups (`nil` modelled as `none`). -/
inductive ObjectItem where
  | mk (keys : List ObjectKey) (assign : Pos) (val : Node)
      (leadComment lineComment : Option CommentGroup)

end

def ObjectList.items : ObjectList → List ObjectItem
  | .mk items => items

def ObjectItem.keys : ObjectItem → List ObjectKey
  | .mk keys _ _ _ _ => keys

def ObjectItem.assign : ObjectItem → Pos
  | .mk _ assign _ _ _ => assign

def ObjectItem.val : ObjectItem → Node
  | .mk _ _ val _ _ => val

def ObjectItem.leadComment : ObjectItem → Option CommentGroup
  | .mk _ _ _ lead _ => lead

def ObjectItem.lineComment : ObjectItem → Option CommentGroup
  | .mk _ _ _ _ line => line

/-- `ast.ObjectItem.Pos()`: the position of the first key, or the zero
position when the item has no keys. -/
def ObjectItem.pos (it : ObjectItem) : Pos :=
  match it.keys with
  | [] => ⟨0, 0, 0⟩
  | k :: _ => k.pos

/-- `ast.Node.Pos()` for each implementation (hcl/ast): literal → token pos,
list → `Lbrack`, object → `Lbrace`, object list → first item (zero when
empty), item → first key, key → token, comment → start, group → first
comment, file → inner node. -/
def Node.pos : Node → Pos
  | .literal tok _ _ => tok.pos
  | .listVal lbrack _ _ => lbrack
  | .objectVal lbrace _ _ => lbrace
  | .objectListNode (.mk items) =>
    match items with
    | [] => ⟨0, 0, 0⟩
    | it :: _ => it.pos
  | .objectItemNode it => it.pos
  | .objectKeyNode k => k.pos
  | .commentNode c => c.start
  | .commentGroupNode g => g.pos
  | .fileNode body _ => body.pos

/-- HCL 1.0 `ast.File`: the root node plus the table of every comment group
in the file. -/
structure File where
  node : Node
  comments : List CommentGroup

/-- `hcl1NodeEndPos` (comments.go): the best-guess end position of a node —
an item's last line-comment start if present, else the end of its value;
closing bracket/brace for lists and objects; the node's own position
otherwise. -/
def hcl1NodeEndPos : Node → Pos
  | .objectItemNode (.mk keys assign val lead line) =>
    match line with
    | some g =>
      if h : g.list.length > 0 then
        (g.list.getLast (by
          intro hnil
          simp [hnil] at h)).start
      else hcl1NodeEndPos val
    | none => hcl1NodeEndPos val
  | .listVal _ rbrack _ => rbrack
  | .objectVal _ rbrace _ => rbrace
  | n => n.pos

/-- The ad hoc comment queue (comments.go): a position-sorted list of
comment groups not owned by any node. -/
abbrev commentQueue := List CommentGroup

/-- `commentQueue.TakeBeforePos` (comments.go): scan from the front until the
first group strictly after `pos`, return that prefix and keep the rest. The
result pairs the returned groups with the remaining queue (the Go method
mutates the receiver). -/
def commentQueue.takeBeforePos (q : commentQueue) (pos : Pos) :
    List CommentGroup × commentQueue :=
  (q.takeWhile (fun g => !(g.pos.after pos)),
   q.dropWhile (fun g => !(g.pos.after pos)))

/-- `commentQueue.TakeBefore` (comments.go): take every queued group at or
before the given node's position. -/
def commentQueue.takeBefore (q : commentQueue) (node : Node) :
    List CommentGroup × commentQueue :=
  commentQueue.takeBeforePos q node.pos

/-- The subset of the `cty` value model produced by the constant converter:
strings, integer- and float-valued numbers, booleans, tuples and objects.
Object attributes are an insertion-ordered association list standing for the
Go `map[string]cty.Value` (cty object equality does not depend on attribute
order, and the converter only ever inserts with last-wins overwrite). -/
inductive CtyValue where
  | stringVal (s : String)
  | numberIntVal (i : Int)
  | numberFloatVal (f : GoFloat)
  | boolVal (b : Bool)
  | tupleVal (elems : List CtyValue)
  | objectVal (attrs : List (String × CtyValue))

/-- Go map assignment `m[k] = v` on the association-list model: overwrite the
existing entry for `k` in place, or append a new entry. -/
def mapSet : List (String × CtyValue) → String → CtyValue →
    List (String × CtyValue)
  | [], k, v => [(k, v)]
  | (k', v') :: rest, k, v =>
    if k' = k then (k, v) :: rest else (k', v') :: mapSet rest k v

mutual

/-- `upgradeExpressionConstant` (cliconfigupgrade.go): convert a legacy
constant AST node to a cty value. Literals map by payload type, lists map to
tuples of recursively converted elements, objects map to cty objects with
last-wins duplicate keys; every other node kind is a panic (modelled as an
error). -/
def upgradeExpressionConstant : Node → Except String CtyValue
  | .literal tok _ _ =>
    match tok.value with
    | .str s => .ok (.stringVal s)
    | .int i => .ok (.numberIntVal i)
    | .float f => .ok (.numberFloatVal f)
    | .bool b => .ok (.boolVal b)
  | .listVal _ _ elems =>
    match upgradeConstantList elems with
    | .error e => .error e
    | .ok vals => .ok (.tupleVal vals)
  | .objectVal _ _ (.mk items) =>
    match upgradeConstantObject items [] with
    | .error e => .error e
    | .ok vals => .ok (.objectVal vals)
  | .fileNode _ _ => .error "cannot derive expression from node"
  | .commentNode _ => .error "cannot derive expression from node"
  | .commentGroupNode _ => .error "cannot derive expression from node"
  | .objectKeyNode _ => .error "cannot derive expression from node"
  | .objectItemNode _ => .error "cannot derive expression from node"
  | .objectListNode _ => .error "unsupported HCL 1.0 node type"

/-- The element loop of the `ListType` case of `upgradeExpressionConstant`:
`vals[i] = upgradeExpressionConstant(node)` for each element in order. -/
def upgradeConstantList : List Node → Except String (List CtyValue)
  | [] => .ok []
  | n :: rest =>
    match upgradeExpressionConstant n with
    | .error e => .error e
    | .ok v =>
      match upgradeConstantList rest with
      | .error e => .error e
      | .ok vs => .ok (v :: vs)

/-- The item loop of the `ObjectType` case of `upgradeExpressionConstant`:
`vals[name] = upgradeExpressionConstant(item.Val)` for each item in order,
into the accumulated map. -/
def upgradeConstantObject : List ObjectItem → List (String × CtyValue) →
    Except String (List (String × CtyValue))
  | [], acc => .ok acc
  | .mk keys _ val _ _ :: rest, acc =>
    match keys with
    | [] => .error "index out of range"
    | k :: _ =>
      match k.token.value.asString with
      | .error e => .error e
      | .ok name =>
        match upgradeExpressionConstant val with
        | .error e => .error e
        | .ok v => upgradeConstantObject rest (mapSet acc name v)

end

example :
    upgradeExpressionConstant
      (.listVal ⟨0, 0, 0⟩ ⟨0, 0, 0⟩
        [.literal ⟨⟨0, 0, 0⟩, .str "a"⟩ none none,
         .literal ⟨⟨0, 0, 0⟩, .bool true⟩ none none]) =
      .ok (.tupleVal [.stringVal "a", .boolVal true]) := rfl

/-- One construct of an hclwrite document body, in emission order: a named
attribute, a nested labeled block with its own body, an unstructured run of
comment tokens (each comment followed by its newline token, as
`writeComments` emits them), or a bare newline token. -/
inductive BodyElem where
  | attr (name : String) (value : CtyValue)
  | block (typeName : String) (labels : List String) (body : List BodyElem)
  | commentToks (texts : List String)
  | newline

/-- An hclwrite `Body`: the ordered sequence of constructs emitted so far. -/
abbrev Body := List BodyElem

/-- hclwrite `Body.SetAttributeValue`: replace the value of an existing
attribute of the given name in place, or append a new attribute at the end
(hclwrite keeps each argument defined at most once). -/
def setAttributeValue : Body → String → CtyValue → Body
  | [], name, val => [.attr name val]
  | .attr n v :: rest, name, val =>
    if n = name then .attr n val :: rest
    else .attr n v :: setAttributeValue rest name val
  | e :: rest, name, val => e :: setAttributeValue rest name val

/-- `writeComments` (comments.go): a nil group writes nothing; otherwise the
group's comments are appended as one unstructured token run (each comment
token followed by a newline token). -/
def writeComments (dst : Body) (comments : Option CommentGroup) : Body :=
  match comments with
  | none => dst
  | some g => dst ++ [.commentToks (g.list.map Comment.text)]

/-- `writeNewline` (comments.go): append one newline token. -/
def writeNewline (dst : Body) : Body :=
  dst ++ [.newline]

/-- The ad hoc comment loop at the top of `upgradeBody`'s per-item handling:
for each taken group, write its comments and then an extra separator
newline after the group. -/
def writeAdhocComments (dst : Body) (groups : List CommentGroup) : Body :=
  groups.foldl (fun b g => writeNewline (writeComments b (some g))) dst

/-- The `oldDidExpandEnv` computation in `upgradeBody`: true only for a
root-level item whose name is `providers`, `provisioners` or
`plugin_cache_dir`. -/
def oldDidExpandEnvFor (root : Bool) (name : String) : Bool :=
  root &&
    (name == "providers" || name == "provisioners" ||
      name == "plugin_cache_dir")

/-- `Val.(*hcl1ast.ObjectType)` comma-ok form: is the value an object type? -/
def Node.isObjectType : Node → Bool
  | .objectVal _ _ _ => true
  | _ => false

/-- `upgradeArgument` (cliconfigupgrade.go): read the name from the first
key; the `expandEnv` case panics (`ExpandEnv expression upgrade not yet
supported`); otherwise convert the constant value, set it as the body's
attribute for the name (last definition wins via `SetAttributeValue`), and
re-emit the item's line comment after it. -/
def upgradeArgument (item : ObjectItem) (dst : Body) (expandEnv : Bool) :
    Except String Body :=
  match item.keys with
  | [] => .error "index out of range"
  | k :: _ =>
    match k.token.value.asString with
    | .error e => .error e
    | .ok name =>
      if expandEnv then
        .error "ExpandEnv expression upgrade not yet supported"
      else
        match upgradeExpressionConstant item.val with
        | .error e => .error e
        | .ok val =>
          .ok (writeComments (setAttributeValue dst name val) item.lineComment)

/-- The label loop of `upgradeNestedBlock`:
`labels[i] = from.Keys[i+1].Token.Value().(string)` in order. -/
def keyStrings : List ObjectKey → Except String (List String)
  | [] => .ok []
  | k :: rest =>
    match k.token.value.asString with
    | .error e => .error e
    | .ok s =>
      match keyStrings rest with
      | .error e => .error e
      | .ok ss => .ok (s :: ss)

mutual

/-- `upgradeBody` (cliconfigupgrade.go): walk the object list's items in
order, emitting into the target body; threads the ad hoc comment queue and
the root flag. -/
def upgradeBody (src : ObjectList) (dst : Body) (adhocComments : commentQueue)
    (root : Bool) : Except String (Body × commentQueue) :=
  match src with
  | .mk items => upgradeItems items dst adhocComments root

/-- The `for i, item := range items` loop of `upgradeBody`: process one item,
then, if another item follows more than one line below this item's
best-guess end line, emit one extra blank separator line. -/
def upgradeItems : List ObjectItem → Body → commentQueue → Bool →
    Except String (Body × commentQueue)
  | [], dst, q, _ => .ok (dst, q)
  | item :: rest, dst, q, root =>
    match upgradeItem item dst q root with
    | .error e => .error e
    | .ok (to1, q1) =>
      let to2 :=
        match rest with
        | [] => to1
        | next :: _ =>
          if ((next.pos.line : Int) -
              ((hcl1NodeEndPos (.objectItemNode item)).line : Int)) > 1 then
            writeNewline to1
          else to1
      upgradeItems rest to2 q1 root

/-- The per-item body of `upgradeBody`'s loop: drain the ad hoc queue up to
the item's position and write those groups (each followed by a separator
newline), write the item's lead comment, read the item's name, compute
`oldDidExpandEnv` and the block-syntax shape, and dispatch to
`upgradeArgument` (forced `expandEnv` for the historical ExpandEnv names) or
`upgradeNestedBlock`. -/
def upgradeItem (item : ObjectItem) (dst : Body) (q : commentQueue)
    (root : Bool) : Except String (Body × commentQueue) :=
  match item with
  | .mk keys assign val leadC _lineC =>
    let tq := commentQueue.takeBefore q (.objectItemNode item)
    let to1 := writeAdhocComments dst tq.1
    let to2 := writeComments to1 leadC
    match keys with
    | [] => .error "index out of range"
    | k :: _ =>
      match k.token.value.asString with
      | .error e => .error e
      | .ok name =>
        let blockShape :=
          if !val.isObjectType then true
          else decide (assign.line = 0) || decide (keys.length > 1)
        if oldDidExpandEnvFor root name then
          match upgradeArgument item to2 true with
          | .error e => .error e
          | .ok b => .ok (b, tq.2)
        else if blockShape then
          upgradeNestedBlock keys val to2 tq.2
        else
          match upgradeArgument item to2 false with
          | .error e => .error e
          | .ok b => .ok (b, tq.2)

/-- `upgradeNestedBlock` (cliconfigupgrade.go), receiving the item's keys and
value (the only fields the Go function reads from its `*ObjectItem`): append
a new block named after the first key, with the remaining keys as labels,
and upgrade the item's object body into it recursively with the root flag
false; a non-object value fails the `*hcl1ast.ObjectType` assertion. -/
def upgradeNestedBlock (keys : List ObjectKey) (val : Node) (dst : Body)
    (q : commentQueue) : Except String (Body × commentQueue) :=
  match keys with
  | [] => .error "index out of range"
  | k :: rest =>
    match k.token.value.asString with
    | .error e => .error e
    | .ok name =>
      match keyStrings rest with
      | .error e => .error e
      | .ok labels =>
        match val with
        | .objectVal _ _ lst =>
          match upgradeBody lst [] q false with
          | .error e => .error e
          | .ok (inner, q') => .ok (dst ++ [.block name labels inner], q')
        | _ => .error "interface conversion: value is not an ObjectType"

end

/-- The positions deleted for one owned (lead or line) comment group: the
`Pos()` of each comment in the group (`delete(comments, comment.Pos())`). -/
def groupCommentPositions : Option CommentGroup → List Pos
  | none => []
  | some g => g.list.map Comment.start

mutual

/-- The `hcl1ast.Walk` pass of `collectAdhocComments`: visit every node and
collect, for every `LiteralType` and `ObjectItem`, the positions of the
comments in its lead and line comment groups (those are owned and are
re-emitted inline by the tree upgrader). -/
def nodeOwnedPositions : Node → List Pos
  | .literal _ leadC lineC =>
    groupCommentPositions leadC ++ groupCommentPositions lineC
  | .listVal _ _ elems => nodesOwnedPositions elems
  | .objectVal _ _ lst => objectListOwnedPositions lst
  | .objectListNode lst => objectListOwnedPositions lst
  | .objectItemNode it => itemOwnedPositions it
  | .objectKeyNode _ => []
  | .commentNode _ => []
  | .commentGroupNode _ => []
  | .fileNode body _ => nodeOwnedPositions body

def nodesOwnedPositions : List Node → List Pos
  | [] => []
  | n :: rest => nodeOwnedPositions n ++ nodesOwnedPositions rest

def objectListOwnedPositions : ObjectList → List Pos
  | .mk items => itemsOwnedPositions items

def itemsOwnedPositions : List ObjectItem → List Pos
  | [] => []
  | it :: rest => itemOwnedPositions it ++ itemsOwnedPositions rest

def itemOwnedPositions : ObjectItem → List Pos
  | .mk _ _ val leadC lineC =>
    groupCommentPositions leadC ++ groupCommentPositions lineC ++
      nodeOwnedPositions val

end

/-- Go map insertion `comments[c.Pos()] = c` on a position-keyed association
list: overwrite an existing entry with the same position, else append. -/
def insertPos : List (Pos × CommentGroup) → Pos → CommentGroup →
    List (Pos × CommentGroup)
  | [], p, g => [(p, g)]
  | (p', g') :: rest, p, g =>
    if p' = p then (p, g) :: rest else (p', g') :: insertPos rest p g

/-- Go map deletion `delete(comments, p)`. -/
def erasePos (m : List (Pos × CommentGroup)) (p : Pos) :
    List (Pos × CommentGroup) :=
  m.filter (fun e => decide (e.1 ≠ p))

/-- `collectAdhocComments` (comments.go): key every comment group of the
file by position, remove the groups owned by literal or item nodes found
during the walk, and sort what remains by source position (`sort.Slice`
with `Pos.Before` as the strict order; modelled with `mergeSort` under the
corresponding non-strict order). -/
def collectAdhocComments (f : File) : commentQueue :=
  let m := f.comments.foldl (fun m c => insertPos m c.pos c) []
  let owned := nodeOwnedPositions f.node
  let m := owned.foldl (fun m p => erasePos m p) m
  if m.isEmpty then []
  else (m.map Prod.snd).mergeSort (fun a b => !(b.pos.before a.pos))

/-- `configNeedsUpgrade` (cliconfigupgrade.go): the structural-equivalence
pre-check, currently an always-true placeholder (`TODO: Implement this
heuristic`). -/
def configNeedsUpgrade (_old : File) : Bool :=
  true

/-- `UpgradeOldHCLConfig` (cliconfigupgrade.go). The two external
collaborators are parameters: `parse` is the HCL 1.0 parser
(`hcl1parser.Parse`, an error modelled as `.error`), and `serialize` is the
hclwrite serializer (`hcl2write.File.Bytes` on the built body). If parsing
fails the original bytes are returned unchanged and no diagnostic is
produced (the function's only successful output is a byte buffer); if the
pre-check reports no upgrade needed the original bytes are returned; else
the root object list is upgraded into a fresh body and serialized. A
top-level result of `.error` models a Go panic escaping the call. -/
def UpgradeOldHCLConfig (parse : List Nat → Except String File)
    (serialize : Body → List Nat) (old : List Nat) :
    Except String (List Nat) :=
  match parse old with
  | .error _ => .ok old
  | .ok oldF =>
    if !configNeedsUpgrade oldF then .ok old
    else
      let adhocComments := collectAdhocComments oldF
      match oldF.node with
      | .objectListNode oldRootList =>
        match upgradeBody oldRootList [] adhocComments true with
        | .error e => .error e
        | .ok (newBody, _) => .ok (serialize newBody)
      | _ => .error "interface conversion: file node is not an ObjectList"

/-! ### Observers and concrete inputs used by the verification -/

/-- The values of the attributes named `name` in a body, in body order
(hclwrite keeps at most one; the observer counts them all). -/
def attrValuesOf (name : String) : Body → List CtyValue
  | [] => []
  | .attr n v :: rest =>
    if n = name then v :: attrValuesOf name rest else attrValuesOf name rest
  | .block _ _ _ :: rest => attrValuesOf name rest
  | .commentToks _ :: rest => attrValuesOf name rest
  | .newline :: rest => attrValuesOf name rest

mutual

/-- The depth of block nesting of one body element. -/
def elemDepth : BodyElem → Nat
  | .block _ _ body => 1 + bodyDepth body
  | _ => 0

/-- The depth of block nesting of a body: the deepest chain of nested
blocks inside it. -/
def bodyDepth : Body → Nat
  | [] => 0
  | e :: rest => max (elemDepth e) (bodyDepth rest)

end

mutual

/-- Every string literal value occurring anywhere inside a node (used to
express "the value contains a `${FOO}` sequence"). -/
def literalStringsOf : Node → List String
  | .literal tok _ _ =>
    match tok.value with
    | .str s => [s]
    | _ => []
  | .listVal _ _ elems => literalStringsOfList elems
  | .objectVal _ _ lst => literalStringsOfObjectList lst
  | .objectListNode lst => literalStringsOfObjectList lst
  | .objectItemNode it => literalStringsOfItem it
  | .objectKeyNode _ => []
  | .commentNode _ => []
  | .commentGroupNode _ => []
  | .fileNode body _ => literalStringsOf body

def literalStringsOfList : List Node → List String
  | [] => []
  | n :: rest => literalStringsOf n ++ literalStringsOfList rest

def literalStringsOfObjectList : ObjectList → List String
  | .mk items => literalStringsOfItems items

def literalStringsOfItems : List ObjectItem → List String
  | [] => []
  | it :: rest => literalStringsOfItem it ++ literalStringsOfItems rest

def literalStringsOfItem : ObjectItem → List String
  | .mk _ _ val _ _ => literalStringsOf val

end

/-- Replaying a whole sequence of `TakeBeforePos` calls against a queue:
the concatenation, in call order, of everything the queue ever returns. -/
def takeRun (q : commentQueue) : List Pos → List CommentGroup
  | [] => []
  | p :: ps =>
    (commentQueue.takeBeforePos q p).1 ++
      takeRun (commentQueue.takeBeforePos q p).2 ps

/-- The strict source-position order on comment groups used to state queue
sortedness: strictly increasing byte offset and non-decreasing line (how
positions of distinct comment groups of one file relate). -/
def groupPosLt (a b : CommentGroup) : Prop :=
  a.pos.offset < b.pos.offset ∧ a.pos.line ≤ b.pos.line

instance : DecidableRel groupPosLt := fun a b =>
  inferInstanceAs
    (Decidable (a.pos.offset < b.pos.offset ∧ a.pos.line ≤ b.pos.line))

/-- An object key with the given name (string-valued token). -/
def mkKey (s : String) : ObjectKey :=
  ⟨⟨⟨0, 0, 0⟩, .str s⟩⟩

/-- An `N`-level chain of block-shaped items: each level is one item whose
first key is the level's type name, whose remaining keys are its labels,
and whose value is an object body holding the next level (the innermost
body is empty). Block syntax is marked by a zero `Assign` position. -/
def mkNestedItem : (String × List String) → List (String × List String) →
    ObjectItem
  | (name, labels), rest =>
    .mk (mkKey name :: labels.map mkKey) ⟨0, 0, 0⟩
      (.objectVal ⟨0, 0, 0⟩ ⟨0, 0, 0⟩
        (.mk
          (match rest with
          | [] => []
          | spec :: more => [mkNestedItem spec more])))
      none none

/-- The body the chain of `mkNestedItem` levels should upgrade to: one block
per level, nested, with the same names and labels. -/
def mkNestedBlocks : (String × List String) → List (String × List String) →
    Body
  | (name, labels), rest =>
    [.block name labels
      (match rest with
      | [] => []
      | spec :: more => mkNestedBlocks spec more)]

/-- C1 input: a root-level `plugin_cache_dir = "/tmp/plugin-cache"` item —
a plain literal string containing no `$VAR` substitution marker. -/
def cItemPCD : ObjectItem :=
  .mk [⟨⟨⟨0, 1, 1⟩, .str "plugin_cache_dir"⟩⟩] ⟨18, 1, 19⟩
    (.literal ⟨⟨20, 1, 21⟩, .str "/tmp/plugin-cache"⟩ none none) none none

/-- C1 input: a legacy document whose root list contains only the plain
`plugin_cache_dir` literal item. -/
def cDocPCD : ObjectList := .mk [cItemPCD]

/-- C2 input: a root-level `providers { aws = "${FOO}/bin" }` item whose
map value contains a `${FOO}` substitution sequence. -/
def cItemProviders : ObjectItem :=
  .mk [⟨⟨⟨0, 1, 1⟩, .str "providers"⟩⟩] ⟨0, 0, 0⟩
    (.objectVal ⟨10, 1, 11⟩ ⟨40, 3, 1⟩
      (.mk [.mk [⟨⟨⟨14, 2, 3⟩, .str "aws"⟩⟩] ⟨18, 2, 7⟩
        (.literal ⟨⟨20, 2, 9⟩, .str "${FOO}/bin"⟩ none none) none none]))
    none none

/-- C3 input: a parser stub that fails on every input (the behavior under
study only depends on the parse call's result on the given bytes). -/
def cParseFail (_bytes : List Nat) : Except String File :=
  .error "At 1:1: illegal char"

/-- C3 input: a serializer stub. -/
def cSerializeNull (_b : Body) : List Nat := []

/-- C3 input: some concrete unparseable bytes. -/
def cBytesC3 : List Nat := [104, 111, 115, 116, 32, 123]

/-- C4 witness input: a nested-level (root flag false) item named
`providers` with a map value — the historical ExpandEnv name at a non-root
position. -/
def cItemC4 : ObjectItem :=
  .mk [⟨⟨⟨0, 1, 1⟩, .str "providers"⟩⟩] ⟨10, 1, 11⟩
    (.objectVal ⟨12, 1, 13⟩ ⟨13, 1, 14⟩ (.mk [])) none none

/-- C5 witness inputs: three ad hoc comment groups at increasing source
positions, and a cutoff position strictly between the second and third. -/
def cGroupA : CommentGroup := ⟨[⟨⟨0, 1, 1⟩, "# one"⟩]⟩

def cGroupB : CommentGroup := ⟨[⟨⟨10, 3, 1⟩, "# two"⟩]⟩

def cGroupC : CommentGroup := ⟨[⟨⟨30, 7, 1⟩, "# three"⟩]⟩

def cQueueC5 : commentQueue := [cGroupA, cGroupB, cGroupC]

def cCutC5 : Pos := ⟨20, 5, 1⟩

/-- C6 input: an ad hoc comment group positioned before the item. -/
def cGroupC6 : CommentGroup := ⟨[⟨⟨0, 1, 1⟩, "# adhoc"⟩]⟩

/-- C6 input: a `host {}` block item on a later line than the comment. -/
def cItemC6 : ObjectItem :=
  .mk [⟨⟨⟨10, 3, 1⟩, .str "host"⟩⟩] ⟨0, 0, 0⟩
    (.objectVal ⟨15, 3, 6⟩ ⟨16, 3, 7⟩ (.mk [])) none none

/-- C7 inputs: two definitions of the same attribute name with different
constant values. -/
def cItemDup1 : ObjectItem :=
  .mk [⟨⟨⟨0, 1, 1⟩, .str "disable_checkpoint"⟩⟩] ⟨19, 1, 20⟩
    (.literal ⟨⟨21, 1, 22⟩, .bool true⟩ none none) none none

def cItemDup2 : ObjectItem :=
  .mk [⟨⟨⟨30, 2, 1⟩, .str "disable_checkpoint"⟩⟩] ⟨49, 2, 20⟩
    (.literal ⟨⟨51, 2, 22⟩, .bool false⟩ none none) none none

/-- C9 witness input: a legacy list with heterogeneous element types. -/
def cHetList : List Node :=
  [.literal ⟨⟨0, 1, 1⟩, .str "a"⟩ none none,
   .literal ⟨⟨4, 1, 5⟩, .bool true⟩ none none,
   .literal ⟨⟨10, 1, 11⟩, .int 3⟩ none none,
   .literal ⟨⟨13, 1, 14⟩, .float ⟨0x4008000000000000⟩⟩ none none]

/-- C10 witness input: a root-level `disable_checkpoint = true` item — not
substitution-eligible and with a non-object (literal) value. -/
def cItemC10 : ObjectItem :=
  .mk [⟨⟨⟨0, 1, 1⟩, .str "disable_checkpoint"⟩⟩] ⟨19, 1, 20⟩
    (.literal ⟨⟨21, 1, 22⟩, .bool true⟩ none none) none none

/-! ### Theorems -/

/-- Claim C3: for every input byte sequence that the legacy (HCL 1.0)
parser fails to parse, `UpgradeOldHCLConfig` returns exactly the original
input bytes unchanged and produces no diagnostic of its own (a plain
successful result carrying the input). -/
theorem upgradeOldHCLConfig_unparseable_returns_input
    (parse : List Nat → Except String File) (serialize : Body → List Nat)
    (old : List Nat) (e : String) (h : parse old = .error e) :
    UpgradeOldHCLConfig parse serialize old = .ok old := by
  unfold UpgradeOldHCLConfig
  rw [h]

/-- Witness for C3: the stub parser fails on the concrete bytes, and the
upgrade returns those bytes unchanged. -/
theorem upgradeOldHCLConfig_unparseable_witness :
    UpgradeOldHCLConfig cParseFail cSerializeNull cBytesC3 = .ok cBytesC3 :=
  upgradeOldHCLConfig_unparseable_returns_input cParseFail cSerializeNull
    cBytesC3 "At 1:1: illegal char" rfl

/-- Counterexample to C1 as stated: on a legacy document whose root list
holds exactly one item, `plugin_cache_dir = "/tmp/plugin-cache"` (a plain
literal string with no `$VAR` marker), the upgrade does not emit a literal
attribute — it aborts fatally through the unsupported-ExpandEnv panic. -/
theorem upgradeBody_plugin_cache_dir_literal_aborts :
    upgradeBody cDocPCD [] [] true =
      .error "ExpandEnv expression upgrade not yet supported" := rfl

/-- Claim C1 (amended): every root-level item named `plugin_cache_dir` —
in particular one whose value is a plain literal string with no `$VAR`
marker — makes the upgrade abort fatally through the unsupported-ExpandEnv
path; no literal attribute is emitted for it. -/
theorem upgradeItem_plugin_cache_dir_fatal (item : ObjectItem) (dst : Body)
    (q : commentQueue) (k : ObjectKey) (ks : List ObjectKey)
    (hk : item.keys = k :: ks)
    (hname : k.token.value = .str "plugin_cache_dir") :
    upgradeItem item dst q true =
      .error "ExpandEnv expression upgrade not yet supported" := by
  obtain ⟨keys, assign, val, leadC, lineC⟩ := item
  simp only [ObjectItem.keys] at hk
  subst hk
  have hflag : oldDidExpandEnvFor true "plugin_cache_dir" = true := rfl
  simp [upgradeItem, upgradeArgument, ObjectItem.keys, TokenValue.asString,
    hname, hflag]

/-- Witness for C1 (amended): the concrete plain-literal
`plugin_cache_dir` item aborts with the ExpandEnv panic. -/
theorem upgradeItem_plugin_cache_dir_fatal_witness :
    upgradeItem cItemPCD [] [] true =
      .error "ExpandEnv expression upgrade not yet supported" :=
  upgradeItem_plugin_cache_dir_fatal cItemPCD [] []
    ⟨⟨⟨0, 1, 1⟩, .str "plugin_cache_dir"⟩⟩ [] rfl rfl

/-- Claim C2: a root-level item named `providers` whose value contains a
literal `${FOO}` substitution sequence makes the upgrade abort fatally and
unrecoverably through the unsupported-compound-expression path — it is
never emitted as a plain literal. -/
theorem upgradeItem_providers_subst_fatal (item : ObjectItem) (dst : Body)
    (q : commentQueue) (k : ObjectKey) (ks : List ObjectKey) (s : String)
    (hk : item.keys = k :: ks)
    (hname : k.token.value = .str "providers")
    (_hmem : s ∈ literalStringsOf item.val)
    (_hsub : "${FOO}".toList <:+: s.toList) :
    upgradeItem item dst q true =
      .error "ExpandEnv expression upgrade not yet supported" := by
  obtain ⟨keys, assign, val, leadC, lineC⟩ := item
  simp only [ObjectItem.keys] at hk
  subst hk
  have hflag : oldDidExpandEnvFor true "providers" = true := rfl
  simp [upgradeItem, upgradeArgument, ObjectItem.keys, TokenValue.asString,
    hname, hflag]

/-- Witness for C2: the concrete `providers { aws = "${FOO}/bin" }` item
hits the fatal path. -/
theorem upgradeItem_providers_subst_fatal_witness :
    upgradeItem cItemProviders [] [] true =
      .error "ExpandEnv expression upgrade not yet supported" :=
  upgradeItem_providers_subst_fatal cItemProviders [] []
    ⟨⟨⟨0, 1, 1⟩, .str "providers"⟩⟩ [] "${FOO}/bin" rfl rfl
    (by decide) (by decide)

/-- Counterexample to C6 as stated: with exactly one ad hoc comment group
queued before the item, the emitted output is the comment run, then a blank
separator line, then the item's construct — the separator IS written after
the last (here: only) group, where the claim says it is written between
groups but not after the last. -/
theorem upgradeItem_separator_after_last_group :
    upgradeItem cItemC6 [] [cGroupC6] false =
      .ok ([.commentToks ["# adhoc"], .newline, .block "host" [] []], []) :=
  rfl

/-- Claim C6 (amended): every ad hoc comment group taken before an item is
written as a raw comment-token run immediately followed by a blank
separator line, after every group — including the last one. -/
theorem writeAdhocComments_newline_after_each (dst : Body)
    (groups : List CommentGroup) :
    writeAdhocComments dst groups =
      dst ++ groups.flatMap
        (fun g => [.commentToks (g.list.map Comment.text), .newline]) := by
  induction groups generalizing dst with
  | nil => simp [writeAdhocComments]
  | cons g rest ih =>
    have h : writeAdhocComments dst (g :: rest) =
        writeAdhocComments (writeNewline (writeComments dst (some g))) rest :=
      rfl
    rw [h, ih]
    simp [writeComments, writeNewline]

/-- Lemma for C9: the element loop of the list case succeeds with `vs` iff
the elements convert pointwise to `vs` (same length, i-th result from i-th
element). -/
theorem upgradeConstantList_ok_iff (elems : List Node) (vs : List CtyValue) :
    upgradeConstantList elems = .ok vs ↔
      List.Forall₂ (fun n v => upgradeExpressionConstant n = .ok v) elems
        vs := by
  induction elems generalizing vs with
  | nil =>
    simp [upgradeConstantList, List.forall₂_nil_left_iff, eq_comm]
  | cons n rest ih =>
    cases h : upgradeExpressionConstant n with
    | error e =>
      simp only [upgradeConstantList, h]
      constructor
      · intro hfalse
        cases hfalse
      · intro hf
        rcases (List.forall₂_cons_left_iff.mp hf) with ⟨b, u, hb, _, rfl⟩
        rw [h] at hb
        cases hb
    | ok v =>
      cases h2 : upgradeConstantList rest with
      | error e =>
        simp only [upgradeConstantList, h, h2]
        constructor
        · intro hfalse
          cases hfalse
        · intro hf
          rcases (List.forall₂_cons_left_iff.mp hf) with ⟨b, u, _, hu, rfl⟩
          have := (ih u).mpr hu
          rw [h2] at this
          cases this
      | ok vs' =>
        simp only [upgradeConstantList, h, h2, Except.ok.injEq]
        constructor
        · rintro rfl
          exact List.Forall₂.cons h ((ih vs').mp h2)
        · intro hf
          rcases (List.forall₂_cons_left_iff.mp hf) with ⟨b, u, hb, hu, rfl⟩
          have := (ih u).mpr hu
          rw [h2] at this
          cases this
          rw [h] at hb
          cases hb
          rfl

/-- Claim C9: the constant converter maps a legacy list value to an ordered
tuple exactly when every element converts, with the tuple's arity equal to
the source list's length and its i-th element the recursive conversion of
the i-th source element (pointwise `Forall₂`, which permits heterogeneous
element types). -/
theorem upgradeExpressionConstant_list_tuple (lbrack rbrack : Pos)
    (elems : List Node) (res : CtyValue) :
    upgradeExpressionConstant (.listVal lbrack rbrack elems) = .ok res ↔
      ∃ vs, res = .tupleVal vs ∧
        List.Forall₂ (fun n v => upgradeExpressionConstant n = .ok v) elems
          vs := by
  cases h : upgradeConstantList elems with
  | error e =>
    simp only [upgradeExpressionConstant, h]
    constructor
    · intro hfalse
      cases hfalse
    · rintro ⟨vs, rfl, hf⟩
      have := (upgradeConstantList_ok_iff elems vs).mpr hf
      rw [h] at this
      cases this
  | ok vals =>
    simp only [upgradeExpressionConstant, h, Except.ok.injEq]
    constructor
    · rintro rfl
      exact ⟨vals, rfl, (upgradeConstantList_ok_iff elems vals).mp h⟩
    · rintro ⟨vs, rfl, hf⟩
      have := (upgradeConstantList_ok_iff elems vs).mpr hf
      rw [h] at this
      cases this
      rfl

/-- Witness for C9: a concrete heterogeneous list (string, bool, integer,
float) converts to the tuple of the pointwise conversions. -/
theorem upgradeExpressionConstant_list_tuple_witness :
    upgradeExpressionConstant (.listVal ⟨0, 1, 1⟩ ⟨30, 1, 31⟩ cHetList) =
      .ok (.tupleVal [.stringVal "a", .boolVal true, .numberIntVal 3,
        .numberFloatVal ⟨0x4008000000000000⟩]) :=
  (upgradeExpressionConstant_list_tuple ⟨0, 1, 1⟩ ⟨30, 1, 31⟩ cHetList
      _).mpr
    ⟨_, rfl, .cons rfl (.cons rfl (.cons rfl (.cons rfl .nil)))⟩

/-- Lemma for C10: a successful `upgradeNestedBlock` run implies the item
value passed the `*hcl1ast.ObjectType` assertion. -/
theorem upgradeNestedBlock_ok_object {keys : List ObjectKey} {val : Node}
    {dst : Body} {q : commentQueue} {r : Body × commentQueue}
    (h : upgradeNestedBlock keys val dst q = .ok r) :
    val.isObjectType = true := by
  match keys with
  | [] => simp [upgradeNestedBlock] at h
  | k :: ks =>
    rw [upgradeNestedBlock] at h
    cases hs : k.token.value.asString with
    | error e => rw [hs] at h; cases h
    | ok name =>
      rw [hs] at h
      cases hl : keyStrings ks with
      | error e => rw [hl] at h; cases h
      | ok labels =>
        rw [hl] at h
        cases val <;> first
          | rfl
          | cases h

/-- Claim C10: (1) an item that is not substitution-eligible and whose
value is not an object type is forced into the block-syntax classification
and dispatched to the nested-block path, where the object-type assertion on
its value fails and the upgrade aborts with the fatal assertion panic
instead of emitting a plain attribute; (2) whenever processing an item
succeeds at all, the item's value was an object type — so the
plain-attribute conversion path is reachable only for object-typed
values. -/
theorem upgradeItem_non_object_forced_block :
    (∀ (item : ObjectItem) (dst : Body) (q : commentQueue) (root : Bool)
        (k : ObjectKey) (ks : List ObjectKey) (name : String)
        (labels : List String),
        item.keys = k :: ks → k.token.value = .str name →
        oldDidExpandEnvFor root name = false →
        keyStrings ks = .ok labels →
        item.val.isObjectType = false →
        upgradeItem item dst q root =
          .error "interface conversion: value is not an ObjectType") ∧
    (∀ (item : ObjectItem) (dst : Body) (q : commentQueue) (root : Bool)
        (r : Body × commentQueue),
        upgradeItem item dst q root = .ok r →
        item.val.isObjectType = true) := by
  constructor
  · intro item dst q root k ks name labels hk hname hflag hlabels hval
    obtain ⟨keys, assign, val, leadC, lineC⟩ := item
    simp only [ObjectItem.keys] at hk
    subst hk
    simp only [ObjectItem.val] at hval
    have hstr : k.token.value.asString = .ok name := by
      rw [hname]; rfl
    cases val <;>
      simp_all [upgradeItem, upgradeNestedBlock, Node.isObjectType]
  · intro item dst q root r h
    obtain ⟨keys, assign, val, leadC, lineC⟩ := item
    simp only [ObjectItem.val]
    match keys with
    | [] => simp [upgradeItem] at h
    | k :: ks =>
      rw [upgradeItem] at h
      cases hs : k.token.value.asString with
      | error e =>
        rw [hs] at h
        cases h
      | ok name =>
        simp only [hs] at h
        by_cases hflag : oldDidExpandEnvFor root name = true
        · rw [if_pos hflag] at h
          simp [upgradeArgument, ObjectItem.keys, hs] at h
        · rw [if_neg hflag] at h
          by_cases hobj : val.isObjectType = true
          · exact hobj
          · simp only [Bool.not_eq_true] at hobj
            simp only [hobj, Bool.not_false, if_true] at h
            exact upgradeNestedBlock_ok_object h

/-- Witness for C10: the concrete root item `disable_checkpoint = true`
(not substitution-eligible, literal value) aborts with the object-type
assertion failure. -/
theorem upgradeItem_non_object_forced_block_witness :
    upgradeItem cItemC10 [] [] true =
      .error "interface conversion: value is not an ObjectType" :=
  upgradeItem_non_object_forced_block.1 cItemC10 [] [] true
    ⟨⟨⟨0, 1, 1⟩, .str "disable_checkpoint"⟩⟩ [] "disable_checkpoint" []
    rfl rfl rfl rfl rfl

/-- Lemma for C7: `attrValuesOf` distributes over body concatenation. -/
theorem attrValuesOf_append (name : String) (a b : Body) :
    attrValuesOf name (a ++ b) =
      attrValuesOf name a ++ attrValuesOf name b := by
  induction a with
  | nil => simp [attrValuesOf]
  | cons e rest ih =>
    cases e with
    | attr n v =>
      by_cases hn : n = name <;> simp [attrValuesOf, hn, ih]
    | block t l body => simp [attrValuesOf, ih]
    | commentToks ts => simp [attrValuesOf, ih]
    | newline => simp [attrValuesOf, ih]

/-- Lemma for C7: re-emitting a line comment adds no attribute. -/
theorem attrValuesOf_writeComments (name : String) (b : Body)
    (c : Option CommentGroup) :
    attrValuesOf name (writeComments b c) = attrValuesOf name b := by
  cases c with
  | none => rfl
  | some g => simp [writeComments, attrValuesOf_append, attrValuesOf]

/-- Lemma for C7: after `SetAttributeValue`, the attribute's values are the
new value followed by whatever duplicates (beyond the first) were already
present — so a body holding the name at most once ends up holding exactly
the new value. -/
theorem attrValuesOf_setAttributeValue (b : Body) (name : String)
    (v : CtyValue) :
    attrValuesOf name (setAttributeValue b name v) =
      v :: (attrValuesOf name b).tail := by
  induction b with
  | nil => simp [setAttributeValue, attrValuesOf]
  | cons e rest ih =>
    cases e with
    | attr n w =>
      by_cases hn : n = name
      · subst hn
        simp [setAttributeValue, attrValuesOf]
      · simp [setAttributeValue, hn, attrValuesOf, ih]
    | block t l body => simp [setAttributeValue, attrValuesOf, ih]
    | commentToks ts => simp [setAttributeValue, attrValuesOf, ih]
    | newline => simp [setAttributeValue, attrValuesOf, ih]

/-- Claim C7: when the legacy source defines the same plain attribute name
twice with different constant values and both definitions run through the
argument (attribute) upgrade path in order, the resulting body holds
exactly one attribute of that name, carrying the converted value of the
last definition. -/
theorem upgradeArgument_last_wins (it1 it2 : ObjectItem) (dst b1 b2 : Body)
    (name : String) (k1 k2 : ObjectKey) (ks1 ks2 : List ObjectKey)
    (v1 v2 : CtyValue)
    (hk1 : it1.keys = k1 :: ks1) (hn1 : k1.token.value = .str name)
    (hk2 : it2.keys = k2 :: ks2) (hn2 : k2.token.value = .str name)
    (hv1 : upgradeExpressionConstant it1.val = .ok v1)
    (hv2 : upgradeExpressionConstant it2.val = .ok v2)
    (_hne : v1 ≠ v2)
    (hdst : attrValuesOf name dst = [])
    (hb1 : upgradeArgument it1 dst false = .ok b1)
    (hb2 : upgradeArgument it2 b1 false = .ok b2) :
    attrValuesOf name b2 = [v2] := by
  simp only [upgradeArgument, hk1, hn1, TokenValue.asString, hv1,
    Bool.false_eq_true, if_false, Except.ok.injEq] at hb1
  simp only [upgradeArgument, hk2, hn2, TokenValue.asString, hv2,
    Bool.false_eq_true, if_false, Except.ok.injEq] at hb2
  subst hb1
  subst hb2
  rw [attrValuesOf_writeComments, attrValuesOf_setAttributeValue,
    attrValuesOf_writeComments, attrValuesOf_setAttributeValue, hdst]
  rfl

/-- Witness for C7: `disable_checkpoint = true` followed by
`disable_checkpoint = false` leaves exactly one attribute, holding
`false`. -/
theorem upgradeArgument_last_wins_witness :
    attrValuesOf "disable_checkpoint"
      [.attr "disable_checkpoint" (.boolVal false)] = [.boolVal false] :=
  upgradeArgument_last_wins cItemDup1 cItemDup2 []
    [.attr "disable_checkpoint" (.boolVal true)]
    [.attr "disable_checkpoint" (.boolVal false)]
    "disable_checkpoint" ⟨⟨⟨0, 1, 1⟩, .str "disable_checkpoint"⟩⟩
    ⟨⟨⟨30, 2, 1⟩, .str "disable_checkpoint"⟩⟩ [] []
    (.boolVal true) (.boolVal false) rfl rfl rfl rfl rfl rfl
    (by simp) rfl rfl rfl

/-- Lemma for C8: the Go string type assertion succeeds with `s` exactly on
a string token value `s`. -/
theorem asString_ok_iff (tv : TokenValue) (s : String) :
    tv.asString = .ok s ↔ tv = .str s := by
  cases tv <;> simp [TokenValue.asString]

/-- Lemma for C8: the label loop succeeds with `ss` iff the keys' token
values are exactly the strings `ss`, pointwise and in order. -/
theorem keyStrings_ok_iff (ks : List ObjectKey) (ss : List String) :
    keyStrings ks = .ok ss ↔
      List.Forall₂ (fun k s => k.token.value = .str s) ks ss := by
  induction ks generalizing ss with
  | nil =>
    simp [keyStrings, List.forall₂_nil_left_iff, eq_comm]
  | cons k rest ih =>
    cases hs : k.token.value.asString with
    | error e =>
      simp only [keyStrings, hs]
      constructor
      · intro hfalse
        cases hfalse
      · intro hf
        rcases (List.forall₂_cons_left_iff.mp hf) with ⟨b, u, hb, _, rfl⟩
        rw [(asString_ok_iff k.token.value b).mpr hb] at hs
        cases hs
    | ok s =>
      have hks : k.token.value = .str s := (asString_ok_iff _ _).mp hs
      cases h2 : keyStrings rest with
      | error e =>
        simp only [keyStrings, hs, h2]
        constructor
        · intro hfalse
          cases hfalse
        · intro hf
          rcases (List.forall₂_cons_left_iff.mp hf) with ⟨b, u, _, hu, rfl⟩
          have := (ih u).mpr hu
          rw [h2] at this
          cases this
      | ok ss' =>
        simp only [keyStrings, hs, h2, Except.ok.injEq]
        constructor
        · rintro rfl
          exact List.Forall₂.cons hks ((ih ss').mp h2)
        · intro hf
          rcases (List.forall₂_cons_left_iff.mp hf) with ⟨b, u, hb, hu, rfl⟩
          have := (ih u).mpr hu
          rw [h2] at this
          cases this
          rw [hks] at hb
          cases hb
          rfl

/-- Lemma for C8: the label loop on keys built from a list of label strings
returns exactly those strings. -/
theorem keyStrings_mkKeys (labels : List String) :
    keyStrings (labels.map mkKey) = .ok labels := by
  induction labels with
  | nil => rfl
  | cons l rest ih => simp [keyStrings, mkKey, TokenValue.asString, ih]

/-- Lemma for C8: upgrading an `N`-level chain of block-shaped items emits
the mirrored `N`-level chain of blocks (same names, labels in original
order), and the emitted nesting depth equals the input nesting depth. -/
theorem upgradeItem_mkNested (rest : List (String × List String)) :
    ∀ (spec : String × List String) (dst : Body) (root : Bool),
      oldDidExpandEnvFor root spec.1 = false →
      upgradeItem (mkNestedItem spec rest) dst [] root =
        .ok (dst ++ mkNestedBlocks spec rest, []) ∧
      bodyDepth (mkNestedBlocks spec rest) = (spec :: rest).length := by
  induction rest with
  | nil =>
    rintro ⟨name, labels⟩ dst root hflag
    constructor
    · simp [mkNestedItem, upgradeItem, mkKey, TokenValue.asString,
        commentQueue.takeBefore, commentQueue.takeBeforePos,
        writeAdhocComments, writeComments, Node.isObjectType, hflag,
        upgradeNestedBlock, keyStrings_mkKeys, upgradeBody, upgradeItems,
        mkNestedBlocks]
    · simp [mkNestedBlocks, bodyDepth, elemDepth]
  | cons spec2 more ih =>
    rintro ⟨name, labels⟩ dst root hflag
    have hflag2 : oldDidExpandEnvFor false spec2.1 = false := by
      simp [oldDidExpandEnvFor]
    obtain ⟨hup, hdepth⟩ := ih spec2 [] false hflag2
    constructor
    · simp [mkNestedItem, upgradeItem, mkKey, TokenValue.asString,
        commentQueue.takeBefore, commentQueue.takeBeforePos,
        writeAdhocComments, writeComments, Node.isObjectType, hflag,
        upgradeNestedBlock, keyStrings_mkKeys, upgradeBody, upgradeItems,
        hup, mkNestedBlocks]
    · simp [mkNestedBlocks, bodyDepth, elemDepth, hdepth]
      omega

/-- Claim C8: every block-shaped item is emitted as a new block whose type
is its first key and whose labels are exactly the remaining keys in
original order (the label loop succeeds iff the remaining keys' strings
match pointwise), and its nested object list is upgraded recursively with
the root flag false — so an N-level nested block chain in the input (even
one reusing ExpandEnv names below the root) produces an N-level nested
block chain in the output with names and labels preserved. -/
theorem upgradeNestedBlock_preserves_structure :
    (∀ (ks : List ObjectKey) (ss : List String),
      keyStrings ks = .ok ss ↔
        List.Forall₂ (fun k s => k.token.value = .str s) ks ss) ∧
    (∀ (rest : List (String × List String)) (spec : String × List String)
        (dst : Body) (root : Bool),
      oldDidExpandEnvFor root spec.1 = false →
      upgradeItem (mkNestedItem spec rest) dst [] root =
        .ok (dst ++ mkNestedBlocks spec rest, []) ∧
      bodyDepth (mkNestedBlocks spec rest) = (spec :: rest).length) :=
  ⟨keyStrings_ok_iff, upgradeItem_mkNested⟩

/-- Witness for C8: a concrete two-level chain — a `credentials` block with
label `app.terraform.io` holding a `nested` block — upgrades to the
mirrored two-level block structure of depth 2, labels preserved. -/
theorem upgradeNestedBlock_preserves_structure_witness :
    upgradeItem
        (mkNestedItem ("credentials", ["app.terraform.io"]) [("nested", [])])
        [] [] true =
      .ok ([.block "credentials" ["app.terraform.io"]
        [.block "nested" [] []]], []) ∧
    bodyDepth [BodyElem.block "credentials" ["app.terraform.io"]
      [.block "nested" [] []]] = 2 :=
  upgradeNestedBlock_preserves_structure.2 [("nested", [])]
    ("credentials", ["app.terraform.io"]) [] true rfl

/-- Lemma for C5: `After` is upward closed along the source-position order,
so everything beyond the first group past the cutoff is also past it. -/
theorem after_mono {a b : CommentGroup} (pos : Pos) (hab : groupPosLt a b)
    (ha : a.pos.after pos = true) : b.pos.after pos = true := by
  rcases hab with ⟨ho, hl⟩
  simp only [Pos.after, Bool.or_eq_true, decide_eq_true_eq] at ha ⊢
  omega

/-- Lemma for C5: on a position-sorted queue the front scan of
`TakeBeforePos` returns exactly the groups at or before the cutoff and
keeps exactly the groups past it. -/
theorem sorted_take_drop (pos : Pos) :
    ∀ (q : commentQueue), q.Pairwise groupPosLt →
      q.takeWhile (fun g => !(g.pos.after pos)) =
        q.filter (fun g => !(g.pos.after pos)) ∧
      q.dropWhile (fun g => !(g.pos.after pos)) =
        q.filter (fun g => g.pos.after pos)
  | [], _ => by simp
  | g :: rest, h => by
    rcases List.pairwise_cons.mp h with ⟨hg, hrest⟩
    obtain ⟨ih1, ih2⟩ := sorted_take_drop pos rest hrest
    cases hga : g.pos.after pos with
    | false =>
      simp [List.takeWhile_cons, List.dropWhile_cons, List.filter_cons,
        hga, ih1, ih2]
    | true =>
      have hall : ∀ b ∈ rest, b.pos.after pos = true := fun b hb =>
        after_mono pos (hg b hb) hga
      have hcond : ¬((!(g.pos.after pos)) = true) := by simp [hga]
      constructor
      · rw [List.takeWhile_cons, if_neg hcond, List.filter_cons,
          if_neg hcond]
        symm
        rw [List.filter_eq_nil_iff]
        intro b hb
        simp [hall b hb]
      · rw [List.dropWhile_cons, if_neg hcond, List.filter_cons,
          if_pos hga]
        congr 1
        symm
        rw [List.filter_eq_self]
        intro b hb
        exact hall b hb

/-- Lemma for C5: replaying any sequence of take calls only ever returns a
sublist of the original queue (each group at most once, in queue order). -/
theorem takeRun_sublist : ∀ (cuts : List Pos) (q : commentQueue),
    (takeRun q cuts).Sublist q
  | [], _ => List.nil_sublist _
  | p :: ps, q => by
    have h2 := takeRun_sublist ps (commentQueue.takeBeforePos q p).2
    have h3 := h2.append_left (commentQueue.takeBeforePos q p).1
    have h4 : (commentQueue.takeBeforePos q p).1 ++
        (commentQueue.takeBeforePos q p).2 = q :=
      List.takeWhile_append_dropWhile _ _
    show ((commentQueue.takeBeforePos q p).1 ++
      takeRun (commentQueue.takeBeforePos q p).2 ps).Sublist q
    have h5 : ((commentQueue.takeBeforePos q p).1 ++
        (commentQueue.takeBeforePos q p).2).Sublist q := by
      rw [h4]
    exact h3.trans h5

/-- Claim C5: `TakeBeforePos` on a position-sorted ad hoc queue removes and
returns, in ascending source-position order, exactly the still-queued
groups whose position is at or before the cutoff (`After` false, i.e.
offset and line at most the cutoff's), returns empty when none qualify,
and across any sequence of take calls the returned groups form a sublist
of the queue in strictly ascending position order — so no group is ever
returned twice, and a group at an earlier position is always emitted
before one at a later position. -/
theorem takeBeforePos_spec (q : commentQueue) (pos : Pos)
    (hsort : q.Pairwise groupPosLt) :
    (commentQueue.takeBeforePos q pos).1 =
      q.filter (fun g => !(g.pos.after pos)) ∧
    (commentQueue.takeBeforePos q pos).2 =
      q.filter (fun g => g.pos.after pos) ∧
    (commentQueue.takeBeforePos q pos).1 ++
      (commentQueue.takeBeforePos q pos).2 = q ∧
    ((∀ g ∈ q, g.pos.after pos = true) →
      (commentQueue.takeBeforePos q pos).1 = []) ∧
    (∀ g : CommentGroup, g.pos.after pos = false ↔
      g.pos.offset ≤ pos.offset ∧ g.pos.line ≤ pos.line) ∧
    (∀ cuts : List Pos, (takeRun q cuts).Sublist q ∧
      (takeRun q cuts).Pairwise groupPosLt) := by
  obtain ⟨h1, h2⟩ := sorted_take_drop pos q hsort
  refine ⟨h1, h2, List.takeWhile_append_dropWhile _ _, ?_, ?_, ?_⟩
  · intro hall
    show q.takeWhile (fun g => !(g.pos.after pos)) = []
    rw [h1, List.filter_eq_nil_iff]
    intro b hb
    simp [hall b hb]
  · intro g
    simp only [Pos.after, Bool.or_eq_false_iff, decide_eq_false_iff_not,
      not_lt]
  · intro cuts
    exact ⟨takeRun_sublist cuts q,
      List.Pairwise.sublist (takeRun_sublist cuts q) hsort⟩

/-- Witness for C5: on the concrete three-group sorted queue with a cutoff
between the second and third group, the take returns exactly the first two
groups. -/
theorem takeBeforePos_spec_witness :
    (commentQueue.takeBeforePos cQueueC5 cCutC5).1 = [cGroupA, cGroupB] := by
  have h := takeBeforePos_spec cQueueC5 cCutC5 (by decide)
  rw [h.1]
  rfl

/-- Lemma for C4: the string type assertion only ever fails with its own
interface-conversion message. -/
theorem asString_error_msg (tv : TokenValue) (e : String)
    (h : tv.asString = .error e) :
    e = "interface conversion: token value is not a string" := by
  cases tv <;> simp [TokenValue.asString] at h <;> exact h.symm

/-- Lemma for C4: the label loop only ever fails with the string type
assertion's message. -/
theorem keyStrings_error_msg :
    ∀ (ks : List ObjectKey) (e : String), keyStrings ks = .error e →
      e = "interface conversion: token value is not a string"
  | [], e => by simp [keyStrings]
  | k :: rest, e => by
    intro h
    cases hs : k.token.value.asString with
    | error e' =>
      rw [keyStrings, hs] at h
      injection h with he
      rw [← he]
      exact asString_error_msg _ _ hs
    | ok s =>
      rw [keyStrings, hs] at h
      cases h2 : keyStrings rest with
      | error e' =>
        rw [h2] at h
        injection h with he
        rw [← he]
        exact keyStrings_error_msg rest e' h2
      | ok ss =>
        rw [h2] at h
        cases h

mutual

/-- Lemma for C4: the constant converter never produces the ExpandEnv
panic (its own panics carry different messages). -/
theorem noExpandConst : ∀ (n : Node),
    upgradeExpressionConstant n ≠
      .error "ExpandEnv expression upgrade not yet supported"
  | .literal tok lc mc => by
    cases htv : tok.value <;> simp [upgradeExpressionConstant, htv]
  | .listVal lb rb elems => by
    have h := noExpandConstList elems
    cases hc : upgradeConstantList elems with
    | error e =>
      simp only [upgradeExpressionConstant, hc]
      intro hcontra
      injection hcontra with he
      exact h (by rw [hc, he])
    | ok vals => simp [upgradeExpressionConstant, hc]
  | .objectVal lb rb (.mk items) => by
    have h := noExpandConstObject items []
    cases hc : upgradeConstantObject items [] with
    | error e =>
      simp only [upgradeExpressionConstant, hc]
      intro hcontra
      injection hcontra with he
      exact h (by rw [hc, he])
    | ok vals => simp [upgradeExpressionConstant, hc]
  | .objectListNode l => by simp [upgradeExpressionConstant]
  | .objectItemNode i => by simp [upgradeExpressionConstant]
  | .objectKeyNode k => by simp [upgradeExpressionConstant]
  | .commentNode c => by simp [upgradeExpressionConstant]
  | .commentGroupNode g => by simp [upgradeExpressionConstant]
  | .fileNode b cs => by simp [upgradeExpressionConstant]

theorem noExpandConstList : ∀ (elems : List Node),
    upgradeConstantList elems ≠
      .error "ExpandEnv expression upgrade not yet supported"
  | [] => by simp [upgradeConstantList]
  | n :: rest => by
    have h1 := noExpandConst n
    have h2 := noExpandConstList rest
    cases hc : upgradeExpressionConstant n with
    | error e =>
      simp only [upgradeConstantList, hc]
      intro hcontra
      injection hcontra with he
      exact h1 (by rw [hc, he])
    | ok v =>
      cases hc2 : upgradeConstantList rest with
      | error e =>
        simp only [upgradeConstantList, hc, hc2]
        intro hcontra
        injection hcontra with he
        exact h2 (by rw [hc2, he])
      | ok vs => simp [upgradeConstantList, hc, hc2]

theorem noExpandConstObject : ∀ (items : List ObjectItem)
    (acc : List (String × CtyValue)),
    upgradeConstantObject items acc ≠
      .error "ExpandEnv expression upgrade not yet supported"
  | [], acc => by simp [upgradeConstantObject]
  | .mk keys assign val lc mc :: rest, acc => by
    cases keys with
    | nil => simp [upgradeConstantObject]
    | cons k ks =>
      cases hs : k.token.value.asString with
      | error e =>
        have he := asString_error_msg _ _ hs
        simp only [upgradeConstantObject, hs]
        subst he
        simp
      | ok name =>
        have hv := noExpandConst val
        cases hc : upgradeExpressionConstant val with
        | error e =>
          simp only [upgradeConstantObject, hs, hc]
          intro hcontra
          injection hcontra with he
          exact hv (by rw [hc, he])
        | ok v =>
          have hrest := noExpandConstObject rest (mapSet acc name v)
          simp only [upgradeConstantObject, hs, hc]
          exact hrest

end

/-- Lemma for C4: the argument path with `expandEnv` false never produces
the ExpandEnv panic. -/
theorem upgradeArgument_false_no_expand (item : ObjectItem) (dst : Body) :
    upgradeArgument item dst false ≠
      .error "ExpandEnv expression upgrade not yet supported" := by
  obtain ⟨keys, assign, val, lc, mc⟩ := item
  cases keys with
  | nil => simp [upgradeArgument, ObjectItem.keys]
  | cons k ks =>
    cases hs : k.token.value.asString with
    | error e =>
      have he := asString_error_msg _ _ hs
      simp only [upgradeArgument, ObjectItem.keys, hs]
      subst he
      simp
    | ok name =>
      have hv := noExpandConst val
      cases hc : upgradeExpressionConstant val with
      | error e =>
        simp only [upgradeArgument, ObjectItem.keys, ObjectItem.val, hs,
          Bool.false_eq_true, if_false, hc]
        intro hcontra
        injection hcontra with he
        exact hv (by rw [hc, he])
      | ok v =>
        simp [upgradeArgument, ObjectItem.keys, ObjectItem.val, hs, hc]

mutual

/-- Lemma for C4: upgrading a non-root object list never produces the
ExpandEnv panic. -/
theorem noExpandBody : ∀ (src : ObjectList) (dst : Body)
    (q : commentQueue),
    upgradeBody src dst q false ≠
      .error "ExpandEnv expression upgrade not yet supported"
  | .mk items, dst, q => by
    simp only [upgradeBody]
    exact noExpandItems items dst q

theorem noExpandItems : ∀ (items : List ObjectItem) (dst : Body)
    (q : commentQueue),
    upgradeItems items dst q false ≠
      .error "ExpandEnv expression upgrade not yet supported"
  | [], dst, q => by simp [upgradeItems]
  | item :: rest, dst, q => by
    have h1 := noExpandItem item dst q
    cases hit : upgradeItem item dst q false with
    | error e =>
      simp only [upgradeItems, hit]
      intro hcontra
      injection hcontra with he
      exact h1 (by rw [hit, he])
    | ok r =>
      obtain ⟨to1, q1⟩ := r
      simp only [upgradeItems, hit]
      exact noExpandItems rest _ q1

theorem noExpandItem : ∀ (item : ObjectItem) (dst : Body)
    (q : commentQueue),
    upgradeItem item dst q false ≠
      .error "ExpandEnv expression upgrade not yet supported"
  | .mk keys assign val leadC lineC, dst, q => by
    cases keys with
    | nil => simp [upgradeItem]
    | cons k ks =>
      cases hs : k.token.value.asString with
      | error e =>
        have he := asString_error_msg _ _ hs
        simp only [upgradeItem, hs]
        subst he
        simp
      | ok name =>
        have hflag : oldDidExpandEnvFor false name = false := rfl
        simp only [upgradeItem, hs, hflag, Bool.false_eq_true, if_false]
        by_cases hbs :
            (if (!val.isObjectType) = true then true
              else decide (assign.line = 0) ||
                decide ((k :: ks).length > 1)) = true
        · rw [if_pos hbs]
          exact noExpandNested (k :: ks) val _ _
        · rw [if_neg hbs]
          cases hu : upgradeArgument (.mk (k :: ks) assign val leadC lineC)
              (writeComments
                (writeAdhocComments dst
                  ((commentQueue.takeBefore q
                    (.objectItemNode
                      (.mk (k :: ks) assign val leadC lineC)))).1)
                leadC) false with
          | error e =>
            intro hcontra
            injection hcontra with he
            exact upgradeArgument_false_no_expand _ _ (by rw [hu, he])
          | ok b => simp
  
theorem noExpandNested : ∀ (keys : List ObjectKey) (val : Node)
    (dst : Body) (q : commentQueue),
    upgradeNestedBlock keys val dst q ≠
      .error "ExpandEnv expression upgrade not yet supported"
  | [], val, dst, q => by simp [upgradeNestedBlock]
  | k :: ks, val, dst, q => by
    cases hs : k.token.value.asString with
    | error e =>
      have he := asString_error_msg _ _ hs
      simp only [upgradeNestedBlock, hs]
      subst he
      simp
    | ok name =>
      cases hl : keyStrings ks with
      | error e =>
        have he := keyStrings_error_msg ks e hl
        simp only [upgradeNestedBlock, hs, hl]
        subst he
        simp
      | ok labels =>
        cases val with
        | objectVal lb rb lst =>
          have hb := noExpandBody lst [] q
          simp only [upgradeNestedBlock, hs, hl]
          cases hu : upgradeBody lst [] q false with
          | error e =>
            intro hcontra
            injection hcontra with he
            exact hb (by rw [hu, he])
          | ok r =>
            obtain ⟨inner, q'⟩ := r
            simp
        | literal tok lc mc => simp [upgradeNestedBlock, hs, hl]
        | listVal la lb es => simp [upgradeNestedBlock, hs, hl]
        | objectListNode l => simp [upgradeNestedBlock, hs, hl]
        | objectItemNode i => simp [upgradeNestedBlock, hs, hl]
        | objectKeyNode kk => simp [upgradeNestedBlock, hs, hl]
        | commentNode c => simp [upgradeNestedBlock, hs, hl]
        | commentGroupNode g => simp [upgradeNestedBlock, hs, hl]
        | fileNode b cs => simp [upgradeNestedBlock, hs, hl]

end

/-- Claim C4: an object item is treated as environment-substitution
eligible iff it sits in the document root (root flag true) and its name is
exactly one of providers, provisioners, plugin_cache_dir; and at any
nested (non-root) level the ExpandEnv path is unreachable regardless of
the item's name or value — processing with the root flag false can never
produce the ExpandEnv panic. -/
theorem substitution_eligible_iff :
    (∀ (root : Bool) (name : String),
      oldDidExpandEnvFor root name = true ↔
        root = true ∧ (name = "providers" ∨ name = "provisioners" ∨
          name = "plugin_cache_dir")) ∧
    (∀ (item : ObjectItem) (dst : Body) (q : commentQueue),
      upgradeItem item dst q false ≠
        .error "ExpandEnv expression upgrade not yet supported") := by
  constructor
  · intro root name
    simp [oldDidExpandEnvFor, Bool.and_eq_true, Bool.or_eq_true, or_assoc]
  · exact noExpandItem

/-- Witness for C4: `providers` at root is eligible, and a nested-level
`providers` item is processed without hitting the ExpandEnv panic. -/
theorem substitution_eligible_iff_witness :
    oldDidExpandEnvFor true "providers" = true ∧
    upgradeItem cItemC4 [] [] false ≠
      .error "ExpandEnv expression upgrade not yet supported" :=
  ⟨(substitution_eligible_iff.1 true "providers").mpr ⟨rfl, Or.inl rfl⟩,
   substitution_eligible_iff.2 cItemC4 [] []⟩
